import Mathlib

/-!
Verification of the `policy_reporter` repository.

Part 1 embeds `src/assigment2/state_machine.py`: a generic finite state
machine engine instantiated as a mod-three automaton over binary digits.
Python exceptions are modelled with `Except`; the mutable
`current_state` field of a machine instance is passed explicitly, and
`sequence_transition` returns both the value the Python method returns
(or the exception it raises) and the `current_state` the instance holds
after the call.

Part 2 embeds `src/assigment1/best_recall_threshold.py`: a linear scan
over nine (true-positive, false-negative) buckets selecting the best
recall threshold.  Python floats are modelled as exact rationals.
-/

/-- The exceptions the state-machine module can raise.  `pyKeyError` and
`pyIndexError` stand for Python's built-in `KeyError` / `IndexError`,
which the embedding produces where the Python code would index its
transition dictionary or a transition row out of range. -/
inductive FSMError where
  | invalidAlphabetContent
  | invalidState
  | pyKeyError
  | pyIndexError
deriving DecidableEq

/-- `ThreeFiniteStateMachine.letter_transition_index`: a letter in
`[0, 1]` is returned as its own row index; any other letter falls back
to the abstract method, which raises `InvalidAlphabetContent`. -/
def letter_transition_index (letter : Int) : Except FSMError Nat :=
  if letter = 0 ∨ letter = 1 then .ok letter.toNat
  else .error .invalidAlphabetContent

/-- `ThreeFiniteStateMachine.state_check`: a state in
`['S0', 'S1', 'S2']` is returned unchanged; any other state falls back
to the abstract method, which raises `InvalidState`. -/
def state_check (state : String) : Except FSMError String :=
  if state = "S0" ∨ state = "S1" ∨ state = "S2" then .ok state
  else .error .invalidState

/-- `ThreeFiniteStateMachine.transition_matrix`: the class-level dict
mapping each state to its row of next states, indexed by letter.
A key missing from the dict is `none` (Python would raise `KeyError`). -/
def transition_matrix (state : String) : Option (List String) :=
  if state = "S0" then some ["S0", "S1"]
  else if state = "S1" then some ["S2", "S0"]
  else if state = "S2" then some ["S1", "S2"]
  else none

/-- `FiniteStateMachine.transition`:
`self.transition_matrix[self.state_check(state)][self.letter_transition_index(letter)]`.
Python evaluates `state_check` first, then the dict lookup, then
`letter_transition_index`, then the row lookup. -/
def transition (state : String) (letter : Int) : Except FSMError String := do
  let checked ← state_check state
  let row ← match transition_matrix checked with
    | some row => Except.ok row
    | none => Except.error FSMError.pyKeyError
  let index ← letter_transition_index letter
  match row.get? index with
  | some next => Except.ok next
  | none => Except.error FSMError.pyIndexError

/-- The `if not initial_state: initial_state = self.current_state`
prologue of `sequence_transition`: a falsy `initial_state` argument
(Python `None`, or the empty string, since states are strings here) is
replaced by the instance's current state. -/
def initial_or_current (current_state : String) (initial_state : Option String) : String :=
  match initial_state with
  | some s => if s = "" then current_state else s
  | none => current_state

/-- `FiniteStateMachine.sequence_transition`, at the instance state
`current_state`.  The result pair is (what the call returns or raises,
the instance's `current_state` after the call): the Python assignment
`self.current_state = final_state` runs only when `reduce` did not
raise. -/
def sequence_transition (current_state : String) (alphabet_sequence : List Int)
    (initial_state : Option String) : Except FSMError String × String :=
  match alphabet_sequence.foldlM (fun st letter => transition st letter)
      (initial_or_current current_state initial_state) with
  | .ok final_state => (.ok final_state, final_state)
  | .error e => (.error e, current_state)

/-- A fresh `ThreeFiniteStateMachine()` instance: its `current_state`
is the class attribute `'S0'`. -/
def ThreeFiniteStateMachine.new : String := "S0"

/-- `binary_divide_by_three`: rejects the empty list, constructs a
fresh machine, runs the sequence from the fresh instance's state, and
translates the final state into the remainder. -/
def binary_divide_by_three (sequence : List Int) : Except FSMError Int :=
  if sequence.length = 0 then .error .invalidAlphabetContent
  else
    match (sequence_transition ThreeFiniteStateMachine.new sequence none).1 with
    | .error e => .error e
    | .ok final_state =>
      match final_state with
      | "S0" => .ok 0
      | "S1" => .ok 1
      | "S2" => .ok 2
      | _ => .error .invalidState

/-- Python `int(c)` on a single character: the digit value for a
decimal digit, `none` (a `ValueError`) otherwise. -/
def int_of_digit_char (c : Char) : Option Int :=
  if c.isDigit then some ((c.toNat : Int) - 48) else none

/-- `string_digit_list`: `[int(digit) for digit in digit_string]`. -/
def string_digit_list (digit_string : String) : Option (List Int) :=
  digit_string.toList.mapM int_of_digit_char

/-- The value of a bit list read as a most-significant-bit-first binary
number (the mathematical referent of the spec's `binary value of s`). -/
def binary_value (s : List Int) : Int :=
  s.foldl (fun a b => 2 * a + b) 0

/-- The state encoding a remainder: `S0`, `S1`, `S2` for 0, 1, 2. -/
def state_of_mod (r : Int) : String :=
  if r = 0 then "S0" else if r = 1 then "S1" else "S2"

/-- Two successive top-level calls to `binary_divide_by_three`.  Each
call constructs its own fresh machine (`ThreeFiniteStateMachine.new`),
so no state flows from the first call into the second. -/
def two_calls (s1 s2 : List Int) : Except FSMError Int × Except FSMError Int :=
  (binary_divide_by_three s1, binary_divide_by_three s2)

/-! ### Engine lemmas -/

/-- One transition from the state encoding remainder `r` on bit `b`
lands in the state encoding `(2 * r + b) % 3`. -/
lemma transition_state_of_mod (r b : Int) (hr : r = 0 ∨ r = 1 ∨ r = 2)
    (hb : b = 0 ∨ b = 1) :
    transition (state_of_mod r) b = .ok (state_of_mod ((2 * r + b) % 3)) := by
  rcases hr with hr | hr | hr <;> rcases hb with hb | hb <;> subst hr <;> subst hb <;> rfl

/-- Folding the transition function over a bit list from the state
encoding remainder `r` tracks the remainder recurrence step by step. -/
lemma foldlM_transition_bits (s : List Int) (hbits : ∀ x ∈ s, x = 0 ∨ x = 1)
    (r : Int) (hr : r = 0 ∨ r = 1 ∨ r = 2) :
    s.foldlM (fun st letter => transition st letter) (state_of_mod r)
      = .ok (state_of_mod (s.foldl (fun a b => (2 * a + b) % 3) r)) := by
  induction s generalizing r with
  | nil => rfl
  | cons b t ih =>
    have hb : b = 0 ∨ b = 1 := hbits b (List.mem_cons_self b t)
    have ht : ∀ x ∈ t, x = 0 ∨ x = 1 := fun x hx => hbits x (List.mem_cons_of_mem b hx)
    have hstep := transition_state_of_mod r b hr hb
    have hmod : (2 * r + b) % 3 = 0 ∨ (2 * r + b) % 3 = 1 ∨ (2 * r + b) % 3 = 2 := by
      omega
    simp only [List.foldlM_cons, hstep, List.foldl_cons]
    exact ih ht ((2 * r + b) % 3) hmod

/-- Accumulating the running remainder equals accumulating the full
binary value and reducing at the end. -/
lemma foldl_mod_eq (s : List Int) (r : Int) :
    s.foldl (fun a b => (2 * a + b) % 3) (r % 3)
      = (s.foldl (fun a b => 2 * a + b) r) % 3 := by
  induction s generalizing r with
  | nil => rfl
  | cons b t ih =>
    simp only [List.foldl_cons]
    have h : (2 * (r % 3) + b) % 3 = (2 * r + b) % 3 := by omega
    rw [h]
    exact ih (2 * r + b)

/-- Binding a successful `Except` computation applies the
continuation. -/
lemma exceptBind_ok {ε α β : Type} (a : α) (f : α → Except ε β) :
    (Except.ok a >>= f) = f a := rfl

/-- Binding a failed `Except` computation propagates the error. -/
lemma exceptBind_error {ε α β : Type} (e : ε) (f : α → Except ε β) :
    ((Except.error e : Except ε α) >>= f) = Except.error e := rfl

/-- From a valid state, a transition on a valid bit succeeds and lands
in a valid state. -/
lemma transition_valid_bit (st : String) (hst : st = "S0" ∨ st = "S1" ∨ st = "S2")
    (b : Int) (hb : b = 0 ∨ b = 1) :
    ∃ st', transition st b = .ok st' ∧ (st' = "S0" ∨ st' = "S1" ∨ st' = "S2") := by
  rcases hst with h | h | h <;> rcases hb with hb | hb <;> subst h <;> subst hb <;>
    exact ⟨_, rfl, by decide⟩

/-- From a valid state, a transition on a letter outside the alphabet
raises `InvalidAlphabetContent`. -/
lemma transition_invalid_bit (st : String) (hst : st = "S0" ∨ st = "S1" ∨ st = "S2")
    (b : Int) (hb : ¬(b = 0 ∨ b = 1)) :
    transition st b = .error .invalidAlphabetContent := by
  have hl : letter_transition_index b = .error .invalidAlphabetContent := by
    simp [letter_transition_index, hb]
  rcases hst with h | h | h <;> subst h <;>
    simp [transition, state_check, transition_matrix, hl, exceptBind_ok, exceptBind_error]

/-- Folding the transition function over a list that contains a letter
outside the alphabet, starting from a valid state, raises
`InvalidAlphabetContent` (at the first offending letter). -/
lemma foldlM_invalid_letter (s : List Int) (hbad : ∃ x ∈ s, ¬(x = 0 ∨ x = 1))
    (st : String) (hst : st = "S0" ∨ st = "S1" ∨ st = "S2") :
    s.foldlM (fun st letter => transition st letter) st
      = .error .invalidAlphabetContent := by
  induction s generalizing st with
  | nil => simp at hbad
  | cons b t ih =>
    by_cases hb : b = 0 ∨ b = 1
    · obtain ⟨st', hok, hmem⟩ := transition_valid_bit st hst b hb
      have hbad' : ∃ x ∈ t, ¬(x = 0 ∨ x = 1) := by
        rcases hbad with ⟨x, hx, hxb⟩
        rcases List.mem_cons.mp hx with rfl | hx'
        · exact absurd hb hxb
        · exact ⟨x, hx', hxb⟩
      simp only [List.foldlM_cons, hok, exceptBind_ok]
      exact ih hbad' st' hmem
    · have hstep := transition_invalid_bit st hst b hb
      simp only [List.foldlM_cons, hstep, exceptBind_error]

/-- C3: `binary_divide_by_three` on the empty list raises
`InvalidAlphabetContent` and never returns a remainder. -/
theorem c3_empty_input_raises :
    binary_divide_by_three [] = .error .invalidAlphabetContent ∧
    ∀ r : Int, binary_divide_by_three [] ≠ .ok r := by
  refine ⟨rfl, fun r h => ?_⟩
  exact Except.noConfusion h

/-- C2: whenever `sequence_transition` fails, the machine's current
state after the call equals its value before the call: no partial
mutation is observable. -/
theorem c2_no_mutation_on_failure :
    ∀ (current : String) (seq : List Int) (init : Option String) (e : FSMError),
      (sequence_transition current seq init).1 = .error e →
      (sequence_transition current seq init).2 = current := by
  intro current seq init e h
  unfold sequence_transition at h ⊢
  cases hf : seq.foldlM (fun st letter => transition st letter)
      (initial_or_current current init) with
  | ok f => rw [hf] at h; exact Except.noConfusion h
  | error e' => rfl

/-- C2 witness: a concrete failing call leaves the state unchanged. -/
theorem c2_no_mutation_on_failure_witness :
    (sequence_transition "S1" [2] none).1 = .error .invalidAlphabetContent ∧
    (sequence_transition "S1" [2] none).2 = "S1" :=
  ⟨rfl, c2_no_mutation_on_failure "S1" [2] none .invalidAlphabetContent rfl⟩

/-- C10: on the empty symbol list the engine never raises: any truthy
supplied starting state (even one outside `Q`) is returned and stored
unvalidated, a supplied `None` returns the current state, and
empty-input rejection lives only in the adapter
`binary_divide_by_three`. -/
theorem c10_empty_sequence_engine_total :
    ∀ (current s : String), s ≠ "" →
      sequence_transition current [] (some s) = (.ok s, s) ∧
      sequence_transition current ([] : List Int) none = (.ok current, current) ∧
      binary_divide_by_three [] = .error .invalidAlphabetContent := by
  intro current s hs
  refine ⟨?_, rfl, rfl⟩
  simp only [sequence_transition, initial_or_current, if_neg hs]
  rfl

/-- C10 witness: a state far outside `Q` is accepted verbatim on an
empty sequence. -/
theorem c10_empty_sequence_engine_total_witness :
    ("NOT_A_STATE" : String) ≠ "" ∧
      sequence_transition "S2" [] (some "NOT_A_STATE")
        = (.ok "NOT_A_STATE", "NOT_A_STATE") :=
  ⟨by decide, (c10_empty_sequence_engine_total "S2" "NOT_A_STATE" (by decide)).1⟩

/-- C6: each call of `binary_divide_by_three` builds a fresh machine,
so a call's outcome is a function of its argument alone: the second of
two chained calls agrees with a standalone call, and equal inputs give
equal results. -/
theorem c6_calls_independent :
    ∀ s1 s2 : List Int,
      (two_calls s1 s2).2 = binary_divide_by_three s2 ∧
      (two_calls s1 s1).1 = (two_calls s1 s1).2 :=
  fun _ _ => ⟨rfl, rfl⟩

/-- The first component of `sequence_transition` is exactly the
monadic fold of `transition` from the resolved initial state. -/
lemma sequence_transition_fst (current : String) (seq : List Int) (init : Option String) :
    (sequence_transition current seq init).1
      = seq.foldlM (fun st letter => transition st letter)
          (initial_or_current current init) := by
  unfold sequence_transition
  cases hg : seq.foldlM (fun st letter => transition st letter)
      (initial_or_current current init) <;> rfl

/-- When `sequence_transition` returns a final state, it also commits
that state as the machine's new current state. -/
lemma sequence_transition_ok_sets_state (current : String) (seq : List Int)
    (init : Option String) (f : String)
    (h : (sequence_transition current seq init).1 = .ok f) :
    (sequence_transition current seq init).2 = f := by
  unfold sequence_transition at h ⊢
  cases hg : seq.foldlM (fun st letter => transition st letter)
      (initial_or_current current init) with
  | ok g =>
    rw [hg] at h
    exact Except.ok.inj h
  | error e =>
    rw [hg] at h
    exact Except.noConfusion h

/-- The run inside `binary_divide_by_three` on a bit list lands in the
state encoding the binary value's remainder mod 3. -/
lemma sequence_transition_bits (s : List Int) (hbits : ∀ x ∈ s, x = 0 ∨ x = 1) :
    (sequence_transition ThreeFiniteStateMachine.new s none).1
      = .ok (state_of_mod (binary_value s % 3)) := by
  have h0 : state_of_mod 0 = "S0" := rfl
  have hfold := foldlM_transition_bits s hbits 0 (Or.inl rfl)
  have hm3 : s.foldl (fun a b => (2 * a + b) % 3) 0 = binary_value s % 3 := by
    have h := foldl_mod_eq s 0
    norm_num at h
    simpa [binary_value] using h
  rw [h0, hm3] at hfold
  rw [sequence_transition_fst]
  exact hfold

/-- `binary_divide_by_three` on a non-empty bit list returns the
binary value mod 3. -/
lemma binary_divide_by_three_bits (s : List Int) (hne : s ≠ [])
    (hbits : ∀ x ∈ s, x = 0 ∨ x = 1) :
    binary_divide_by_three s = .ok (binary_value s % 3) := by
  have hlen : ¬ s.length = 0 := by simpa [List.length_eq_zero] using hne
  have hrange : binary_value s % 3 = 0 ∨ binary_value s % 3 = 1 ∨ binary_value s % 3 = 2 := by
    omega
  have hrun := sequence_transition_bits s hbits
  unfold binary_divide_by_three
  rw [if_neg hlen, hrun]
  rcases hrange with h | h | h <;> rw [h] <;> rfl

/-- C1: for every non-empty bit list, `binary_divide_by_three` returns
the most-significant-bit-first binary value mod 3; in particular it
maps `[1,1,0,1]` to 1, `[1,1,1,0]` to 2 and `[1,1,1,1]` to 0. -/
theorem c1_binary_divide_by_three_mod_three :
    (∀ s : List Int, s ≠ [] → (∀ x ∈ s, x = 0 ∨ x = 1) →
        binary_divide_by_three s = .ok (binary_value s % 3)) ∧
    binary_divide_by_three [1, 1, 0, 1] = .ok 1 ∧
    binary_divide_by_three [1, 1, 1, 0] = .ok 2 ∧
    binary_divide_by_three [1, 1, 1, 1] = .ok 0 := by
  refine ⟨fun s hne hbits => binary_divide_by_three_bits s hne hbits, rfl, rfl, rfl⟩

/-- C1 witness: instantiating the universal part at `[1, 0, 1]`. -/
theorem c1_binary_divide_by_three_mod_three_witness :
    binary_divide_by_three [1, 0, 1] = .ok (binary_value [1, 0, 1] % 3) :=
  c1_binary_divide_by_three_mod_three.1 [1, 0, 1] (by decide) (by decide)

/-- C4: any list containing a symbol outside `{0, 1}` makes
`binary_divide_by_three` raise `InvalidAlphabetContent`, wherever the
offending symbol sits. -/
theorem c4_invalid_symbol_raises :
    ∀ s : List Int, (∃ x ∈ s, x ≠ 0 ∧ x ≠ 1) →
      binary_divide_by_three s = .error .invalidAlphabetContent := by
  intro s hbad
  obtain ⟨x, hx, hx01⟩ := hbad
  have hne : s ≠ [] := by rintro rfl; cases hx
  have hlen : ¬ s.length = 0 := by simpa [List.length_eq_zero] using hne
  have hbad' : ∃ y ∈ s, ¬(y = 0 ∨ y = 1) := ⟨x, hx, by tauto⟩
  have hfold := foldlM_invalid_letter s hbad' "S0" (by decide)
  have hrun : (sequence_transition ThreeFiniteStateMachine.new s none).1
      = .error .invalidAlphabetContent := by
    rw [sequence_transition_fst]
    exact hfold
  unfold binary_divide_by_three
  rw [if_neg hlen, hrun]

/-- C4 witness: the offending symbol may sit in the middle. -/
theorem c4_invalid_symbol_raises_witness :
    binary_divide_by_three [1, 5, 0] = .error .invalidAlphabetContent :=
  c4_invalid_symbol_raises [1, 5, 0] ⟨5, by decide, by decide, by decide⟩

/-- C5 counterexample: with the falsy supplied starting state `""` and
the machine at `'S0'`, `sequence_transition` does not fold from the
supplied state (which would yield `.ok ""` on an empty sequence) but
from the current state, returning `.ok "S0"`. -/
theorem c5_falsy_initial_counterexample :
    (sequence_transition "S0" ([] : List Int) (some "")).1 = .ok "S0" ∧
    (sequence_transition "S0" ([] : List Int) (some "")).1
      ≠ ([] : List Int).foldlM (fun st letter => transition st letter) "" := by
  refine ⟨rfl, fun h => ?_⟩
  have h' : (Except.ok "S0" : Except FSMError String) = Except.ok "" := h
  exact absurd (Except.ok.inj h') (by decide)

/-- C5 (amended): for every truthy (non-empty-string) supplied
starting state, `sequence_transition` returns the left-to-right fold of
`transition` from that state; with no supplied state it folds from the
instance's current state; and on success the stored current state
equals the returned final state. -/
theorem c5_fold_then_commit_amended :
    ∀ (current : String) (seq : List Int) (s : String), s ≠ "" →
      ((sequence_transition current seq (some s)).1
          = seq.foldlM (fun st letter => transition st letter) s) ∧
      (∀ f, (sequence_transition current seq (some s)).1 = .ok f →
          (sequence_transition current seq (some s)).2 = f) ∧
      ((sequence_transition current seq none).1
          = seq.foldlM (fun st letter => transition st letter) current) ∧
      (∀ f, (sequence_transition current seq none).1 = .ok f →
          (sequence_transition current seq none).2 = f) := by
  intro current seq s hs
  have hinit : initial_or_current current (some s) = s := by
    simp [initial_or_current, hs]
  refine ⟨?_, ?_, ?_, ?_⟩
  · rw [sequence_transition_fst, hinit]
  · exact fun f hf => sequence_transition_ok_sets_state current seq (some s) f hf
  · rw [sequence_transition_fst]; rfl
  · exact fun f hf => sequence_transition_ok_sets_state current seq none f hf

/-- C5 witness: a concrete truthy supplied state. -/
theorem c5_fold_then_commit_amended_witness :
    ("S1" : String) ≠ "" ∧
      (sequence_transition "S2" [0] (some "S1")).1
        = ([0] : List Int).foldlM (fun st letter => transition st letter) "S1" :=
  ⟨by decide, (c5_fold_then_commit_amended "S2" [0] "S1" (by decide)).1⟩

/-- C7: from any state of `Q` on any letter of the alphabet, the
transition stays inside `Q`; consequently, on any non-empty bit list
the final state computed inside `binary_divide_by_three` is one of
`S0`, `S1`, `S2`, and the defensive `InvalidState` branch of the
remainder match is unreachable. -/
theorem c7_states_closed :
    (∀ st ∈ (["S0", "S1", "S2"] : List String), ∀ b : Int, (b = 0 ∨ b = 1) →
        ∃ st', transition st b = .ok st' ∧ st' ∈ (["S0", "S1", "S2"] : List String)) ∧
    (∀ s : List Int, s ≠ [] → (∀ x ∈ s, x = 0 ∨ x = 1) →
        ∃ st', (sequence_transition ThreeFiniteStateMachine.new s none).1 = .ok st' ∧
          st' ∈ (["S0", "S1", "S2"] : List String) ∧
          binary_divide_by_three s ≠ .error .invalidState) := by
  constructor
  · intro st hst b hb
    have hst' : st = "S0" ∨ st = "S1" ∨ st = "S2" := by simpa using hst
    obtain ⟨st', hok, hmem⟩ := transition_valid_bit st hst' b hb
    exact ⟨st', hok, by simpa using hmem⟩
  · intro s hne hbits
    have hrange : binary_value s % 3 = 0 ∨ binary_value s % 3 = 1 ∨ binary_value s % 3 = 2 := by
      omega
    refine ⟨state_of_mod (binary_value s % 3), sequence_transition_bits s hbits, ?_, ?_⟩
    · rcases hrange with h | h | h <;> rw [h] <;> decide
    · rw [binary_divide_by_three_bits s hne hbits]
      exact fun h => Except.noConfusion h

/-- C7 witness: instantiation at the state `S1`, letter 0, and the bit
list `[1, 0]`. -/
theorem c7_states_closed_witness :
    (∃ st', transition "S1" 0 = .ok st' ∧ st' ∈ (["S0", "S1", "S2"] : List String)) ∧
    (∃ st', (sequence_transition ThreeFiniteStateMachine.new [1, 0] none).1 = .ok st' ∧
        st' ∈ (["S0", "S1", "S2"] : List String) ∧
        binary_divide_by_three [1, 0] ≠ .error .invalidState) :=
  ⟨c7_states_closed.1 "S1" (by decide) 0 (Or.inl rfl),
   c7_states_closed.2 [1, 0] (by decide) (by decide)⟩

/-- Mapping `int` over a list of decimal-digit characters succeeds and
preserves the length. -/
lemma mapM_int_of_digit_length (cs : List Char) (h : ∀ c ∈ cs, c.isDigit) :
    ∃ l, cs.mapM int_of_digit_char = some l ∧ l.length = cs.length := by
  have main : ∀ cs : List Char, (∀ c ∈ cs, c.isDigit) →
      ∃ l, List.mapM' int_of_digit_char cs = some l ∧ l.length = cs.length := by
    intro cs
    induction cs with
    | nil => exact fun _ => ⟨[], rfl, rfl⟩
    | cons c t ih =>
      intro h
      have hc : c.isDigit := h c (List.mem_cons_self c t)
      obtain ⟨l, hl, hlen⟩ := ih (fun x hx => h x (List.mem_cons_of_mem c hx))
      refine ⟨((c.toNat : Int) - 48) :: l, ?_, by simp [hlen]⟩
      simp [List.mapM'_cons, int_of_digit_char, hc, hl]
  obtain ⟨l, hl, hlen⟩ := main cs h
  rw [← List.mapM'_eq_mapM]
  exact ⟨l, hl, hlen⟩

/-- C8: `string_digit_list` maps a string of decimal digits to one
integer per character with no binary-ness validation: it accepts the
non-binary digits of `"29"`, and on `"1101"` it produces `[1,1,0,1]`,
whose remainder is 1. -/
theorem c8_string_digit_list :
    (∀ s : String, (∀ c ∈ s.toList, c.isDigit) →
        ∃ l, string_digit_list s = some l ∧ l.length = s.length) ∧
    string_digit_list "1101" = some [1, 1, 0, 1] ∧
    string_digit_list "29" = some [2, 9] ∧
    binary_divide_by_three [1, 1, 0, 1] = .ok 1 := by
  refine ⟨fun s h => ?_, rfl, rfl, rfl⟩
  obtain ⟨l, hl, hlen⟩ := mapM_int_of_digit_length s.toList h
  exact ⟨l, hl, hlen⟩

/-- C8 witness: instantiating the universal part at `"42"`. -/
theorem c8_string_digit_list_witness :
    (∀ c ∈ ("42" : String).toList, c.isDigit) ∧
      ∃ l, string_digit_list "42" = some l ∧ l.length = ("42" : String).length :=
  ⟨by decide, c8_string_digit_list.1 "42" (by decide)⟩

/-! ### The threshold utility (`best_recall_threshold.py`)

Python floats are modelled as exact rationals (`ℚ`). -/

/-- The exception of the threshold utility. -/
inductive InvalidDataException where
  | invalidData
deriving DecidableEq

/-- `recall = tp / (tp + fn) if (tp + fn) > 0 else 0`. -/
def recall_value (tp fn : Int) : ℚ :=
  if tp + fn > 0 then (tp : ℚ) / ((tp : ℚ) + (fn : ℚ)) else 0

/-- `threshold = (i + 1) / 10`, the threshold of bucket index `i`. -/
def threshold_of (i : Nat) : ℚ := ((i : ℚ) + 1) / 10

/-- The `for i, (tp, fn) in enumerate(zip(tp_list, fn_list))` loop of
`find_best_recall_threshold`, carrying the running `best_threshold` and
`best_recall`.  The loop-local `threshold` and `recall` variables are
inlined. -/
def find_best_loop (recall_threshold : ℚ) :
    List (Int × Int) → Nat → Option ℚ → ℚ → Option ℚ
  | [], _, best_threshold, _ => best_threshold
  | (tp, fn) :: rest, i, best_threshold, best_recall =>
    if recall_threshold ≤ recall_value tp fn ∧
        (best_recall < recall_value tp fn ∨ best_threshold = none) then
      find_best_loop recall_threshold rest (i + 1) (some (threshold_of i)) (recall_value tp fn)
    else
      find_best_loop recall_threshold rest (i + 1) best_threshold best_recall

/-- `find_best_recall_threshold`: data-shape check, then the scan,
starting from `best_threshold = None` and `best_recall = -1`. -/
def find_best_recall_threshold (tp_list fn_list : List Int)
    (recall_threshold : ℚ) : Except InvalidDataException (Option ℚ) :=
  if tp_list.length ≠ 9 ∨ fn_list.length ≠ tp_list.length then
    .error .invalidData
  else
    .ok (find_best_loop recall_threshold (tp_list.zip fn_list) 0 none (-1))

/-- Full characterisation of the scan: a `none` result means nothing
qualified (and nothing was carried in); a `some t` result is either the
carried-in best, which dominates every qualifying element of the list,
or the threshold of some qualifying list element whose recall dominates
every qualifying element of the list and the carried-in best recall. -/
lemma find_best_loop_spec (target : ℚ) (l : List (Int × Int)) :
    ∀ (i : Nat) (best : Option ℚ) (br : ℚ),
      (find_best_loop target l i best br = none →
        best = none ∧ ∀ p ∈ l, recall_value p.1 p.2 < target) ∧
      (∀ t : ℚ, find_best_loop target l i best br = some t →
        (best = some t ∧
          ∀ p ∈ l, target ≤ recall_value p.1 p.2 → recall_value p.1 p.2 ≤ br) ∨
        (∃ j : Fin l.length,
          t = threshold_of (i + j.1) ∧
          target ≤ recall_value (l.get j).1 (l.get j).2 ∧
          (∀ p ∈ l, target ≤ recall_value p.1 p.2 →
            recall_value p.1 p.2 ≤ recall_value (l.get j).1 (l.get j).2) ∧
          (∀ t₀ : ℚ, best = some t₀ → br ≤ recall_value (l.get j).1 (l.get j).2))) := by
  induction l with
  | nil =>
    intro i best br
    refine ⟨fun h => ⟨h, by simp⟩, fun t h => Or.inl ⟨h, by simp⟩⟩
  | cons p rest ih =>
    obtain ⟨tp, fn⟩ := p
    intro i best br
    by_cases hcond : target ≤ recall_value tp fn ∧
        (br < recall_value tp fn ∨ best = none)
    · have hloop : find_best_loop target ((tp, fn) :: rest) i best br
          = find_best_loop target rest (i + 1) (some (threshold_of i)) (recall_value tp fn) := by
        simp only [find_best_loop, if_pos hcond]
      constructor
      · intro h
        rw [hloop] at h
        have hnone := ((ih (i + 1) (some (threshold_of i)) (recall_value tp fn)).1 h).1
        exact absurd hnone (by simp)
      · intro t h
        rw [hloop] at h
        rcases (ih (i + 1) (some (threshold_of i)) (recall_value tp fn)).2 t h with
          ⟨hteq, hdom⟩ | ⟨j, htj, hqj, hdomj, hbrj⟩
        · right
          have ht : t = threshold_of i := (Option.some.inj hteq).symm
          refine ⟨⟨0, by simp⟩, ht, hcond.1, ?_, ?_⟩
          · intro q hq hle
            rcases List.mem_cons.mp hq with rfl | hq'
            · exact le_refl _
            · exact hdom q hq' hle
          · intro t₀ ht₀
            rcases hcond.2 with hlt | hnone
            · exact le_of_lt hlt
            · rw [hnone] at ht₀; exact Option.noConfusion ht₀
        · right
          have hrle : recall_value tp fn ≤ recall_value (rest.get j).1 (rest.get j).2 :=
            hbrj (threshold_of i) rfl
          refine ⟨⟨j.1 + 1, Nat.succ_lt_succ j.2⟩, ?_, hqj, ?_, ?_⟩
          · rw [htj]
            congr 1
            show i + 1 + j.1 = i + (j.1 + 1)
            omega
          · intro q hq hle
            rcases List.mem_cons.mp hq with rfl | hq'
            · exact hrle
            · exact hdomj q hq' hle
          · intro t₀ ht₀
            rcases hcond.2 with hlt | hnone
            · exact le_of_lt (lt_of_lt_of_le hlt hrle)
            · rw [hnone] at ht₀; exact Option.noConfusion ht₀
    · have hloop : find_best_loop target ((tp, fn) :: rest) i best br
          = find_best_loop target rest (i + 1) best br := by
        simp only [find_best_loop, if_neg hcond]
      constructor
      · intro h
        rw [hloop] at h
        obtain ⟨hbest, hall⟩ := (ih (i + 1) best br).1 h
        refine ⟨hbest, ?_⟩
        intro q hq
        rcases List.mem_cons.mp hq with rfl | hq'
        · by_contra hnot
          exact hcond ⟨le_of_not_lt hnot, Or.inr hbest⟩
        · exact hall q hq'
      · intro t h
        rw [hloop] at h
        rcases (ih (i + 1) best br).2 t h with
          ⟨hbest, hdom⟩ | ⟨j, htj, hqj, hdomj, hbrj⟩
        · left
          refine ⟨hbest, ?_⟩
          intro q hq hle
          rcases List.mem_cons.mp hq with rfl | hq'
          · have hnor : ¬(br < recall_value tp fn ∨ best = none) :=
              fun hor => hcond ⟨hle, hor⟩
            exact le_of_not_lt (fun hlt => hnor (Or.inl hlt))
          · exact hdom q hq' hle
        · right
          refine ⟨⟨j.1 + 1, Nat.succ_lt_succ j.2⟩, ?_, hqj, ?_, ?_⟩
          · rw [htj]
            congr 1
            show i + 1 + j.1 = i + (j.1 + 1)
            omega
          · intro q hq hle
            rcases List.mem_cons.mp hq with rfl | hq'
            · cases hb : best with
              | none => exact absurd (And.intro hle (Or.inr hb)) hcond
              | some t₀ =>
                have hbr := hbrj t₀ hb
                have hrbr : recall_value tp fn ≤ br :=
                  le_of_not_lt (fun hlt => hcond ⟨hle, Or.inl hlt⟩)
                exact le_trans hrbr hbr
            · exact hdomj q hq' hle
          · intro t₀ ht₀
            exact hbrj t₀ ht₀

/-- C9: `find_best_recall_threshold` raises `InvalidDataException`
exactly when the true-positive list's length differs from 9 or the two
lists' lengths differ; otherwise it returns `None` when no bucket's
recall meets the target, and else the threshold `(j+1)/10` of a bucket
whose recall meets the target and is highest among all buckets meeting
it. -/
theorem c9_find_best_recall_threshold :
    ∀ (tp_list fn_list : List Int) (recall_threshold : ℚ),
      (find_best_recall_threshold tp_list fn_list recall_threshold
          = .error .invalidData
        ↔ (tp_list.length ≠ 9 ∨ fn_list.length ≠ tp_list.length)) ∧
      (∀ opt, find_best_recall_threshold tp_list fn_list recall_threshold = .ok opt →
        (opt = none →
          ∀ p ∈ tp_list.zip fn_list, recall_value p.1 p.2 < recall_threshold) ∧
        (∀ t, opt = some t →
          ∃ j : Fin (tp_list.zip fn_list).length,
            t = threshold_of j.1 ∧ j.1 < 9 ∧
            recall_threshold ≤
              recall_value ((tp_list.zip fn_list).get j).1 ((tp_list.zip fn_list).get j).2 ∧
            ∀ p ∈ tp_list.zip fn_list, recall_threshold ≤ recall_value p.1 p.2 →
              recall_value p.1 p.2 ≤
                recall_value ((tp_list.zip fn_list).get j).1 ((tp_list.zip fn_list).get j).2)) := by
  intro tp fn target
  by_cases hc : tp.length ≠ 9 ∨ fn.length ≠ tp.length
  · constructor
    · rw [find_best_recall_threshold, if_pos hc]
      exact iff_of_true rfl hc
    · intro opt hopt
      rw [find_best_recall_threshold, if_pos hc] at hopt
      exact absurd hopt (fun h => Except.noConfusion h)
  · have hlen : tp.length = 9 ∧ fn.length = tp.length := by
      push_neg at hc
      exact hc
    have hzlen : (tp.zip fn).length = 9 := by
      simp [List.length_zip, hlen.1, hlen.2]
    constructor
    · rw [find_best_recall_threshold, if_neg hc]
      exact iff_of_false (fun h => Except.noConfusion h) hc
    · intro opt hopt
      rw [find_best_recall_threshold, if_neg hc] at hopt
      have hopt' : find_best_loop target (tp.zip fn) 0 none (-1) = opt :=
        Except.ok.inj hopt
      constructor
      · intro hnone
        rw [hnone] at hopt'
        exact ((find_best_loop_spec target (tp.zip fn) 0 none (-1)).1 hopt').2
      · intro t ht
        rw [ht] at hopt'
        rcases (find_best_loop_spec target (tp.zip fn) 0 none (-1)).2 t hopt' with
          ⟨hbest, _⟩ | ⟨j, htj, hqj, hdomj, _⟩
        · exact absurd hbest (fun h => Option.noConfusion h)
        · refine ⟨j, ?_, ?_, hqj, hdomj⟩
          · simpa using htj
          · rw [← hzlen]
            exact j.2

/-- C9 witness: with all-zero buckets every computed recall is 0, so a
target of 1 is never met and the scan returns `None`. -/
theorem c9_find_best_recall_threshold_witness :
    find_best_recall_threshold [0, 0, 0, 0, 0, 0, 0, 0, 0]
        [0, 0, 0, 0, 0, 0, 0, 0, 0] 1 = .ok none ∧
    ∀ p ∈ ([0, 0, 0, 0, 0, 0, 0, 0, 0] : List Int).zip [0, 0, 0, 0, 0, 0, 0, 0, 0],
      recall_value p.1 p.2 < 1 := by
  have hfind : find_best_recall_threshold [0, 0, 0, 0, 0, 0, 0, 0, 0]
      [0, 0, 0, 0, 0, 0, 0, 0, 0] 1 = .ok none := rfl
  exact ⟨hfind, ((c9_find_best_recall_threshold _ _ 1).2 none hfind).1 rfl⟩
